import Mathlib

/-!
Verification of the cortina_medals_count dashboard's data logic
(src/src/main.jsx): the CSV parser `parseCSV`, the history pivot
`buildHistoryChartData`, the top-5 / selection derivation of `loadData`,
the `toggleCountry` selection handler, and the fetch error handling of
`loadData`.  JavaScript strings are modelled as Lean `String`s (with
character lists for the splitting/trimming primitives), JavaScript
objects as insertion-ordered association lists, and JavaScript's
`Number` coercion by an executable model of the decimal fragment of the
ECMAScript `StringNumericLiteral` grammar.
-/

namespace Cortina

/-! ### Character-level string primitives (JS `trim`, `replace`, `split`) -/

/-- Trim whitespace from both ends of a character list (model of JS
`String.prototype.trim`; the JS whitespace set is approximated by
`Char.isWhitespace`). -/
def trimChars (cs : List Char) : List Char :=
  ((cs.dropWhile Char.isWhitespace).reverse.dropWhile Char.isWhitespace).reverse

/-- `jsTrim` on `String`s. -/
def jsTrim (s : String) : String := String.mk (trimChars s.data)

/-- Model of `.replace(/\r\n/g, "\n")`: every CRLF pair becomes LF. -/
def replCRLF : List Char → List Char
  | '\r' :: '\n' :: rest => '\n' :: replCRLF rest
  | c :: rest => c :: replCRLF rest
  | [] => []

/-- Model of `.replace(/\r/g, "\n")`: every remaining CR becomes LF. -/
def replCR (cs : List Char) : List Char :=
  cs.map (fun c => if c = '\r' then '\n' else c)

/-- Model of JS `String.prototype.split` with a single-character
separator: `"".split(sep)` is `[""]`, and separators delimit (possibly
empty) fields. -/
def splitOnChar (sep : Char) : List Char → List (List Char)
  | [] => [[]]
  | c :: rest =>
    match splitOnChar sep rest with
    | [] => [[c]]
    | g :: gs => if c = sep then [] :: g :: gs else (c :: g) :: gs

/-! ### Model of JavaScript `Number` string coercion -/

/-- An idealized JS number produced by parsing a decimal literal:
`mantissa * 10 ^ exp10`.  IEEE-754 rounding of JS numbers is not
modelled (no claim depends on it); the representation is not
normalized. -/
structure DecNum where
  mantissa : Int
  exp10 : Int
deriving DecidableEq

/-- A JS number value: finite decimal, or one of the two infinities
(`Number("Infinity")`, `Number("-Infinity")`).  NaN is represented by
`Option.none` at the parsing layer, matching `isNaN`. -/
inductive JSNum where
  | fin (d : DecNum)
  | posInf
  | negInf
deriving DecidableEq

/-- Digits to a natural number, most significant first. -/
def digitsToNat (ds : List Char) : Nat :=
  ds.foldl (fun n c => 10 * n + (c.toNat - '0'.toNat)) 0

/-- Value of a hex digit. -/
def hexDigitVal (c : Char) : Nat :=
  if c.isDigit then c.toNat - '0'.toNat
  else if 'a' ≤ c ∧ c ≤ 'f' then c.toNat - 'a'.toNat + 10
  else c.toNat - 'A'.toNat + 10

/-- Hex digits to a natural number. -/
def hexDigitsToNat (ds : List Char) : Nat :=
  ds.foldl (fun n c => 16 * n + hexDigitVal c) 0

/-- Is `c` a hexadecimal digit? -/
def isHexDigit (c : Char) : Bool :=
  c.isDigit || ('a' ≤ c && c ≤ 'f') || ('A' ≤ c && c ≤ 'F')

/-- Parse the optional exponent part of a decimal literal (`e`/`E`,
optional sign, digits); the whole remaining input must be consumed.
`none` models NaN. -/
def parseExpPart : List Char → Option Int
  | [] => some 0
  | c :: rest =>
    if c = 'e' ∨ c = 'E' then
      match rest with
      | '+' :: ds =>
        if ds ≠ [] ∧ ds.all Char.isDigit then some (digitsToNat ds : Int) else none
      | '-' :: ds =>
        if ds ≠ [] ∧ ds.all Char.isDigit then some (-(digitsToNat ds : Int)) else none
      | ds =>
        if ds ≠ [] ∧ ds.all Char.isDigit then some (digitsToNat ds : Int) else none
    else none

/-- Parse an unsigned decimal literal (`digits`, `digits.digits`,
`digits.`, `.digits`, each with an optional exponent), consuming the
whole input.  `none` models NaN. -/
def parseUnsignedDec (t : List Char) : Option DecNum :=
  let intPart := t.takeWhile Char.isDigit
  let rest1 := t.dropWhile Char.isDigit
  match rest1 with
  | '.' :: rest2 =>
    let fracPart := rest2.takeWhile Char.isDigit
    let rest3 := rest2.dropWhile Char.isDigit
    if intPart = [] ∧ fracPart = [] then none
    else
      (parseExpPart rest3).map (fun e =>
        ⟨(digitsToNat (intPart ++ fracPart) : Int), e - (fracPart.length : Int)⟩)
  | _ =>
    if intPart = [] then none
    else (parseExpPart rest1).map (fun e => ⟨(digitsToNat intPart : Int), e⟩)

/-- Model of ECMAScript `Number(string)` (the `StringNumericLiteral`
grammar): surrounding whitespace is ignored, the empty remainder is `0`,
radix-prefixed integer literals (`0x`/`0o`/`0b`, no sign) and signed
decimal literals (with optional fraction, exponent, or `Infinity`) are
accepted; everything else is NaN, modelled as `none`. -/
def jsToNumber (cs : List Char) : Option JSNum :=
  let t := trimChars cs
  match t with
  | [] => some (JSNum.fin ⟨0, 0⟩)
  | '0' :: x :: ds =>
    if x = 'x' ∨ x = 'X' then
      if ds ≠ [] ∧ ds.all isHexDigit then some (JSNum.fin ⟨(hexDigitsToNat ds : Int), 0⟩)
      else none
    else if x = 'o' ∨ x = 'O' then
      if ds ≠ [] ∧ ds.all (fun c => '0' ≤ c ∧ c ≤ '7') then
        some (JSNum.fin ⟨(ds.foldl (fun n c => 8 * n + (c.toNat - '0'.toNat)) 0 : Int), 0⟩)
      else none
    else if x = 'b' ∨ x = 'B' then
      if ds ≠ [] ∧ ds.all (fun c => c = '0' ∨ c = '1') then
        some (JSNum.fin ⟨(ds.foldl (fun n c => 2 * n + (c.toNat - '0'.toNat)) 0 : Int), 0⟩)
      else none
    else
      (parseUnsignedDec t).map JSNum.fin
  | '+' :: r =>
    if r = ("Infinity").data then some JSNum.posInf
    else (parseUnsignedDec r).map JSNum.fin
  | '-' :: r =>
    if r = ("Infinity").data then some JSNum.negInf
    else (parseUnsignedDec r).map (fun d => JSNum.fin ⟨-d.mantissa, d.exp10⟩)
  | _ =>
    if t = ("Infinity").data then some JSNum.posInf
    else (parseUnsignedDec t).map JSNum.fin

/-! ### Parsed CSV values and records -/

/-- A parsed CSV field value: a JS number or a string (never
null/undefined). -/
inductive Value where
  | num (n : JSNum)
  | str (s : String)
deriving DecidableEq

/-- `Value.isNum` tests the numeric case. -/
def Value.isNum : Value → Bool
  | Value.num _ => true
  | Value.str _ => false

/-- The per-field coercion of `parseCSV` (src/src/main.jsx lines 20-22):
`const num = Number(val); isNaN(num) || val === "" ? val : num`.
The argument is the already-trimmed field text. -/
def coerceField (val : String) : Value :=
  match jsToNumber val.data with
  | none => Value.str val
  | some n => if val = ("") then Value.str val else Value.num n

/-- A JS object, modelled as an insertion-ordered association list. -/
abbrev JsObj (α : Type) : Type := List (String × α)

/-- JS property read: first binding of the key, if any. -/
def jsGetA {α : Type} : List (String × α) → String → Option α
  | [], _ => none
  | (k', v) :: rest, k => if k' = k then some v else jsGetA rest k

/-- JS property write: update the first binding of the key in place
(keeping its position), or append a fresh binding at the end. -/
def jsSetA {α : Type} : List (String × α) → String → α → List (String × α)
  | [], k, v => [(k, v)]
  | (k', v') :: rest, k, v =>
    if k' = k then (k, v) :: rest else (k', v') :: jsSetA rest k v

/-- Model of `Object.fromEntries`: bind each pair in order, later pairs
overwriting earlier bindings of the same key. -/
def jsFromEntries {α : Type} (ps : List (String × α)) : List (String × α) :=
  ps.foldl (fun o p => jsSetA o p.1 p.2) []

/-- A parsed CSV record: header name to coerced value. -/
abbrev Record : Type := List (String × Value)

/-- Build one record from the header list and one data line
(src/src/main.jsx lines 16-24): split on commas, trim each value,
missing trailing values default to `""` (`values[i] ?? ""`), and coerce
each field. -/
def mkRecord (headers : List String) (line : List Char) : Record :=
  let values := (splitOnChar ',' line).map (fun v => String.mk (trimChars v))
  jsFromEntries (headers.enum.map (fun p => (p.2, coerceField (values.getD p.1 ("")))))

/-- Normalization step of `parseCSV` (line 11): trim the whole text,
then replace CRLF and CR by LF. -/
def normalizeText (text : String) : List Char :=
  replCR (replCRLF (trimChars text.data))

/-- The line split of `parseCSV` (line 12). -/
def splitLines (text : String) : List (List Char) :=
  splitOnChar '\n' (normalizeText text)

/-- The trimmed header names of `parseCSV` (line 13). -/
def headersOf (text : String) : List String :=
  match splitLines text with
  | [] => []
  | headerLine :: _ => (splitOnChar ',' headerLine).map (fun h => String.mk (trimChars h))

/-- Model of `parseCSV` (src/src/main.jsx lines 10-26): first line is
the header, remaining lines that are non-blank after trimming each
become one record. -/
def parseCSV (text : String) : List Record :=
  match splitLines text with
  | [] => []
  | _headerLine :: lines =>
    (lines.filter (fun l => trimChars l ≠ [])).map (mkRecord (headersOf text))

/-! ### History pivot (`buildHistoryChartData`, src/src/main.jsx lines 29-38) -/

/-- One history CSV row as consumed by the pivot: the fields
`Scrape_Date`, `Country` (strings) and `Gold` (an arbitrary parsed
value, carried opaquely). -/
structure HistoryRow where
  Scrape_Date : String
  Country : String
  Gold : Value
deriving DecidableEq

/-- One iteration of the pivot loop (lines 31-36), parameterized by the
date-formatting function `fmt` standing for
`d => new Date(d).toLocaleDateString("en-US", \x7bmonth: "short", day: "2-digit"\x7d)`:
create the point for the row's label if absent, then set the row's
country field to its Gold value. -/
def buildStep (fmt : String → String) (byDate : List (String × JsObj Value))
    (row : HistoryRow) : List (String × JsObj Value) :=
  let label := fmt row.Scrape_Date
  let byDate1 :=
    match jsGetA byDate label with
    | some _ => byDate
    | none => jsSetA byDate label [(("date"), Value.str label)]
  match jsGetA byDate1 label with
  | some pt => jsSetA byDate1 label (jsSetA pt row.Country row.Gold)
  | none => byDate1

/-- Model of `buildHistoryChartData` (lines 29-38): fold the rows into
the `byDate` object, then take `Object.values` (values in key insertion
order). -/
def buildHistoryChartData (fmt : String → String) (rows : List HistoryRow) :
    List (JsObj Value) :=
  (rows.foldl (buildStep fmt) []).map (fun p => p.2)

/-! ### Dashboard derived state (`loadData`, src/src/main.jsx lines 157-167) -/

/-- A typed row of the latest medal table, per the data model (Country
unique key, integer medal counts); only the fields the top-5 derivation
reads are used by the theorems. -/
structure MedalRecord where
  Country : String
  Rank : Int
  Gold : Int
  Silver : Int
  Bronze : Int
  Total : Int
  Scrape_Date : String
deriving DecidableEq

/-- The comparator `(a, b) => b.Gold - a.Gold` of line 158, rendered as
the corresponding total preorder: `a` may precede `b` iff
`b.Gold - a.Gold ≤ 0`.  JS `Array.prototype.sort` is specified to be a
stable sort consistent with the comparator; it is modelled by
`List.mergeSort`, which is exactly that. -/
def goldDescLE (a b : MedalRecord) : Bool := decide (b.Gold ≤ a.Gold)

/-- Model of the `top5` derivation (lines 157-160):
`[...latest].sort((a, b) => b.Gold - a.Gold).slice(0, 5).map(r => r.Country)`. -/
def top5 (latest : List MedalRecord) : List String :=
  ((latest.mergeSort goldDescLE).take 5).map (fun r => r.Country)

/-- Model of `setSelectedCountries(top5.slice(0, 3))` (line 167). -/
def selectedCountriesInit (latest : List MedalRecord) : List String :=
  (top5 latest).take 3

/-! ### Selection toggling (`toggleCountry`, src/src/main.jsx lines 179-183) -/

/-- Model of `toggleCountry`:
`prev.includes(c) ? prev.filter(x => x !== c) : prev.length < 5 ? [...prev, c] : prev`. -/
def toggleCountry (c : String) (prev : List String) : List String :=
  if c ∈ prev then prev.filter (fun x => x ≠ c)
  else if prev.length < 5 then prev ++ [c] else prev

/-! ### Fetch error handling (`loadData`, src/src/main.jsx lines 127-177) -/

/-- The observable part of a fetch response: `ok`, `status`, and the
body text. -/
structure Response where
  ok : Bool
  status : Nat
  text : String

/-- The load-relevant component state after `loadData` resolves. -/
structure LoadOutcome where
  fetchError : Option String
  loaded : Bool
deriving DecidableEq

/-- Model of the control flow of `loadData` (lines 128-175): inside
`try`, a non-ok latest response throws `latest CSV: <status>`, then a
non-ok history response throws `history CSV: <status>`; the `catch`
stores the thrown message in `fetchError`; the `finally` sets `loaded`
unconditionally.  (The success-path state derivation is modelled by
`parseCSV`, `buildHistoryChartData`, `top5` and `selectedCountriesInit`
above; none of it throws.) -/
def loadData (latestRes historyRes : Response) : LoadOutcome :=
  let thrown : Option String :=
    if latestRes.ok = false then some (("latest CSV: ") ++ toString latestRes.status)
    else if historyRes.ok = false then some (("history CSV: ") ++ toString historyRes.status)
    else none
  { fetchError := thrown, loaded := true }

/-! ### Specification-side auxiliary definitions -/

/-- Deduplicate a list of labels keeping the first occurrence of each,
in first-seen order (the spec's "order in which distinct labels were
first encountered"). -/
def firstSeenLabels (ls : List String) : List String :=
  ls.foldl (fun acc l => if l ∈ acc then acc else acc ++ [l]) []

/-- The Gold value of the last input record with the given formatted
date label and country, if any (the spec's "later record with the same
(label, country) pair overwrites the earlier value"). -/
def lastGold (fmt : String → String) (rows : List HistoryRow) (label c : String) :
    Option Value :=
  ((rows.filter (fun r => decide (fmt r.Scrape_Date = label ∧ r.Country = c))).getLast?).map
    (fun r => r.Gold)

/-! ### Association-list lemmas for the JS object model -/

theorem jsGetA_jsSetA_self {α : Type} (o : List (String × α)) (k : String) (v : α) :
    jsGetA (jsSetA o k v) k = some v := by
  induction o with
  | nil => simp [jsSetA, jsGetA]
  | cons hd tl ih =>
    obtain ⟨k', v'⟩ := hd
    by_cases h : k' = k
    · simp [jsSetA, h, jsGetA]
    · simp [jsSetA, h, jsGetA, ih]

theorem jsGetA_jsSetA_ne {α : Type} (o : List (String × α)) {k k' : String} (v : α)
    (h : k' ≠ k) : jsGetA (jsSetA o k v) k' = jsGetA o k' := by
  induction o with
  | nil => simp [jsSetA, jsGetA, Ne.symm h]
  | cons hd tl ih =>
    obtain ⟨k₀, v₀⟩ := hd
    by_cases hk : k₀ = k
    · subst hk
      simp [jsSetA, jsGetA, Ne.symm h]
    · simp only [jsSetA, if_neg hk, jsGetA]
      by_cases hk' : k₀ = k'
      · simp [hk']
      · simp [hk', ih]

theorem jsSetA_map_fst {α : Type} (o : List (String × α)) (k : String) (v : α) :
    (jsSetA o k v).map Prod.fst =
      if k ∈ o.map Prod.fst then o.map Prod.fst else o.map Prod.fst ++ [k] := by
  induction o with
  | nil => simp [jsSetA]
  | cons hd tl ih =>
    obtain ⟨k', v'⟩ := hd
    by_cases h : k' = k
    · subst h
      simp [jsSetA]
    · by_cases hm : k ∈ tl.map Prod.fst
      · simp [jsSetA, h, ih, hm, Ne.symm h]
      · simp [jsSetA, h, ih, hm, Ne.symm h]

theorem jsGetA_eq_none_iff {α : Type} (o : List (String × α)) (k : String) :
    jsGetA o k = none ↔ k ∉ o.map Prod.fst := by
  induction o with
  | nil => simp [jsGetA]
  | cons hd tl ih =>
    obtain ⟨k', v'⟩ := hd
    by_cases h : k' = k
    · simp [jsGetA, h]
    · simp [jsGetA, h, ih, Ne.symm h]

theorem jsSetA_of_not_mem {α : Type} {o : List (String × α)} {k : String} (v : α)
    (h : k ∉ o.map Prod.fst) : jsSetA o k v = o ++ [(k, v)] := by
  induction o with
  | nil => simp [jsSetA]
  | cons hd tl ih =>
    obtain ⟨k', v'⟩ := hd
    simp only [List.map_cons, List.mem_cons, not_or] at h
    simp [jsSetA, Ne.symm h.1, ih h.2]

theorem jsGetA_get {α : Type} (o : List (String × α)) (h : (o.map Prod.fst).Nodup)
    (i : Nat) (hi : i < o.length) :
    jsGetA o (o.get ⟨i, hi⟩).1 = some (o.get ⟨i, hi⟩).2 := by
  induction o generalizing i with
  | nil => simp at hi
  | cons hd tl ih =>
    obtain ⟨k', v'⟩ := hd
    simp only [List.map_cons, List.nodup_cons] at h
    cases i with
    | zero => simp [jsGetA]
    | succ n =>
      have hn : n < tl.length := by simpa using hi
      have hmem : (tl.get ⟨n, hn⟩).1 ∈ tl.map Prod.fst :=
        List.mem_map_of_mem Prod.fst (tl.get_mem _ _)
      have hne : k' ≠ (tl.get ⟨n, hn⟩).1 := fun e => h.1 (e ▸ hmem)
      have ihn := ih h.2 n hn
      simp only [List.get_cons_succ, jsGetA]
      rw [if_neg hne]
      exact ihn

/-! ### First-seen label lemmas -/

theorem mem_foldl_firstSeen (ls : List String) (x : String) :
    ∀ acc, (x ∈ ls.foldl (fun acc l => if l ∈ acc then acc else acc ++ [l]) acc ↔
      x ∈ acc ∨ x ∈ ls) := by
  induction ls with
  | nil => intro acc; simp
  | cons y ys ih =>
    intro acc
    simp only [List.foldl_cons]
    rw [ih]
    by_cases hy : y ∈ acc
    · by_cases hxy : x = y
      · subst hxy; simp [hy]
      · simp [hy, hxy]
    · simp [hy, List.mem_append, or_assoc]

theorem mem_firstSeenLabels {x : String} {ls : List String} :
    x ∈ firstSeenLabels ls ↔ x ∈ ls := by
  simpa using mem_foldl_firstSeen ls x []

theorem nodup_foldl_firstSeen (ls : List String) :
    ∀ acc : List String, acc.Nodup →
      (ls.foldl (fun acc l => if l ∈ acc then acc else acc ++ [l]) acc).Nodup := by
  induction ls with
  | nil => intro acc hacc; simpa using hacc
  | cons y ys ih =>
    intro acc hacc
    simp only [List.foldl_cons]
    apply ih
    by_cases hy : y ∈ acc
    · simpa [hy] using hacc
    · simp only [if_neg hy]
      simp [List.nodup_append, hacc, hy]

theorem firstSeenLabels_nodup (ls : List String) : (firstSeenLabels ls).Nodup :=
  nodup_foldl_firstSeen ls [] (by simp)

theorem firstSeenLabels_concat (ls : List String) (l : String) :
    firstSeenLabels (ls ++ [l]) =
      if l ∈ firstSeenLabels ls then firstSeenLabels ls else firstSeenLabels ls ++ [l] := by
  simp [firstSeenLabels, List.foldl_append]

theorem mem_of_jsGetA_eq_some {α : Type} {o : List (String × α)} {k : String} {v : α}
    (h : jsGetA o k = some v) : k ∈ o.map Prod.fst := by
  by_contra hm
  rw [(jsGetA_eq_none_iff o k).mpr hm] at h
  exact Option.noConfusion h

/-! ### Pivot fold invariants -/

theorem buildFold_concat (fmt : String → String) (rs : List HistoryRow) (r : HistoryRow) :
    (rs ++ [r]).foldl (buildStep fmt) [] = buildStep fmt (rs.foldl (buildStep fmt) []) r := by
  simp [List.foldl_append]

theorem buildFold_map_fst (fmt : String → String) (rows : List HistoryRow) :
    (rows.foldl (buildStep fmt) []).map Prod.fst =
      firstSeenLabels (rows.map (fun r => fmt r.Scrape_Date)) := by
  induction rows using List.reverseRecOn with
  | nil => simp [firstSeenLabels]
  | append_singleton rs r ih =>
    rw [buildFold_concat, List.map_append, List.map_singleton, firstSeenLabels_concat]
    cases h1 : jsGetA (rs.foldl (buildStep fmt) []) (fmt r.Scrape_Date) with
    | some pt =>
      have hmem : fmt r.Scrape_Date ∈ (rs.foldl (buildStep fmt) []).map Prod.fst :=
        mem_of_jsGetA_eq_some h1
      have hmem' : fmt r.Scrape_Date ∈ firstSeenLabels (rs.map (fun r => fmt r.Scrape_Date)) :=
        ih ▸ hmem
      simp only [buildStep, h1]
      rw [jsSetA_map_fst, if_pos hmem, ih, if_pos hmem']
    | none =>
      have hmem : fmt r.Scrape_Date ∉ (rs.foldl (buildStep fmt) []).map Prod.fst :=
        (jsGetA_eq_none_iff _ _).mp h1
      have hmem' : fmt r.Scrape_Date ∉ firstSeenLabels (rs.map (fun r => fmt r.Scrape_Date)) :=
        ih ▸ hmem
      have hkeys1 : (jsSetA (rs.foldl (buildStep fmt) []) (fmt r.Scrape_Date)
            [(("date"), Value.str (fmt r.Scrape_Date))]).map Prod.fst =
          (rs.foldl (buildStep fmt) []).map Prod.fst ++ [fmt r.Scrape_Date] := by
        rw [jsSetA_map_fst, if_neg hmem]
      have hmem2 : fmt r.Scrape_Date ∈ (jsSetA (rs.foldl (buildStep fmt) [])
          (fmt r.Scrape_Date) [(("date"), Value.str (fmt r.Scrape_Date))]).map Prod.fst := by
        rw [hkeys1]
        simp
      simp only [buildStep, h1, jsGetA_jsSetA_self]
      rw [jsSetA_map_fst, if_pos hmem2, hkeys1, ih, if_neg hmem']

theorem buildFold_value (fmt : String → String) (rows : List HistoryRow) :
    ∀ (label c : String) (g : Value), lastGold fmt rows label c = some g →
      ∃ pt, jsGetA (rows.foldl (buildStep fmt) []) label = some pt ∧ jsGetA pt c = some g := by
  induction rows using List.reverseRecOn with
  | nil =>
    intro label c g h
    simp [lastGold] at h
  | append_singleton rs r ih =>
    intro label c g h
    rw [buildFold_concat]
    simp only [lastGold, List.filter_append] at h
    by_cases hmatch : fmt r.Scrape_Date = label ∧ r.Country = c
    · have hfr : List.filter
          (fun r' => decide (fmt r'.Scrape_Date = label ∧ r'.Country = c)) [r] = [r] := by
        simp [hmatch]
      rw [hfr, List.getLast?_concat] at h
      have hg : r.Gold = g := by simpa using h
      obtain ⟨hl, hc⟩ := hmatch
      subst hl
      subst hc
      subst hg
      cases h1 : jsGetA (rs.foldl (buildStep fmt) []) (fmt r.Scrape_Date) with
      | some pt =>
        refine ⟨jsSetA pt r.Country r.Gold, ?_, ?_⟩
        · simp only [buildStep, h1]
          exact jsGetA_jsSetA_self _ _ _
        · exact jsGetA_jsSetA_self _ _ _
      | none =>
        refine ⟨jsSetA [(("date"), Value.str (fmt r.Scrape_Date))] r.Country r.Gold, ?_, ?_⟩
        · simp only [buildStep, h1, jsGetA_jsSetA_self]
        · exact jsGetA_jsSetA_self _ _ _
    · have hfr : List.filter
          (fun r' => decide (fmt r'.Scrape_Date = label ∧ r'.Country = c)) [r] = [] := by
        simp only [List.filter_cons, List.filter_nil]
        rw [if_neg (by simpa using hmatch)]
      rw [hfr, List.append_nil] at h
      obtain ⟨pt₀, hpt₀, hval⟩ := ih label c g (by simpa [lastGold] using h)
      by_cases hl : fmt r.Scrape_Date = label
      · subst hl
        have hc : r.Country ≠ c := fun e => hmatch ⟨rfl, e⟩
        refine ⟨jsSetA pt₀ r.Country r.Gold, ?_, ?_⟩
        · simp only [buildStep, hpt₀]
          exact jsGetA_jsSetA_self _ _ _
        · rw [jsGetA_jsSetA_ne _ _ (Ne.symm hc)]
          exact hval
      · refine ⟨pt₀, ?_, hval⟩
        have hne : label ≠ fmt r.Scrape_Date := fun e => hl e.symm
        cases h1 : jsGetA (rs.foldl (buildStep fmt) []) (fmt r.Scrape_Date) with
        | some pt =>
          simp only [buildStep, h1]
          rw [jsGetA_jsSetA_ne _ _ hne]
          exact hpt₀
        | none =>
          simp only [buildStep, h1, jsGetA_jsSetA_self]
          rw [jsGetA_jsSetA_ne _ _ hne, jsGetA_jsSetA_ne _ _ hne]
          exact hpt₀

/-! ### Remaining shared lemmas -/

theorem toggle_preserves (c : String) (s : List String) (h1 : s.Nodup) (h2 : s.length ≤ 5) :
    (toggleCountry c s).Nodup ∧ (toggleCountry c s).length ≤ 5 := by
  by_cases hm : c ∈ s
  · simp only [toggleCountry, if_pos hm]
    refine ⟨h1.filter _, le_trans (List.length_filter_le _ _) h2⟩
  · simp only [toggleCountry, if_neg hm]
    by_cases hl : s.length < 5
    · simp only [if_pos hl]
      constructor
      · simp [List.nodup_append, h1, hm]
      · simp only [List.length_append, List.length_singleton]
        omega
    · simp only [if_neg hl]
      exact ⟨h1, h2⟩

theorem jsFromEntries_aux {α : Type} (ps : List (String × α)) :
    ∀ acc : List (String × α), ((acc ++ ps).map Prod.fst).Nodup →
      ps.foldl (fun o p => jsSetA o p.1 p.2) acc = acc ++ ps := by
  induction ps with
  | nil =>
    intro acc _
    simp
  | cons p ps ih =>
    intro acc h
    obtain ⟨k, v⟩ := p
    simp only [List.foldl_cons]
    have hk : k ∉ acc.map Prod.fst := by
      intro hm
      rw [List.map_append, List.nodup_append] at h
      exact h.2.2 hm (by simp)
    rw [jsSetA_of_not_mem v hk]
    have := ih (acc ++ [(k, v)]) (by simpa [List.append_assoc] using h)
    rw [this]
    simp

theorem jsFromEntries_of_nodup {α : Type} (ps : List (String × α))
    (h : (ps.map Prod.fst).Nodup) : jsFromEntries ps = ps := by
  simpa using jsFromEntries_aux ps [] (by simpa using h)

theorem foldl_jsSetA_map_fst {α : Type} (ps : List (String × α)) :
    ∀ acc : List (String × α),
      (ps.foldl (fun o p => jsSetA o p.1 p.2) acc).map Prod.fst =
        (ps.map Prod.fst).foldl (fun ks k => if k ∈ ks then ks else ks ++ [k])
          (acc.map Prod.fst) := by
  induction ps with
  | nil =>
    intro acc
    simp
  | cons p ps ih =>
    intro acc
    simp only [List.foldl_cons, List.map_cons]
    rw [ih, jsSetA_map_fst]

theorem jsFromEntries_map_fst {α : Type} (ps : List (String × α)) :
    (jsFromEntries ps).map Prod.fst = firstSeenLabels (ps.map Prod.fst) := by
  simpa [jsFromEntries, firstSeenLabels] using foldl_jsSetA_map_fst ps []

theorem mkRecord_map_fst (headers : List String) (line : List Char) :
    (mkRecord headers line).map Prod.fst = firstSeenLabels headers := by
  simp only [mkRecord]
  rw [jsFromEntries_map_fst]
  congr 1
  rw [List.map_map]
  exact List.enum_map_snd headers

/-! ### The claims -/

/-- Claim C1: for every input field value handed to the CSV parser, the
stored value is a number if and only if the trimmed field text is
non-empty and fully parses as a number (`jsToNumber` succeeds); in every
other case, including the empty field, the stored value is the trimmed
string itself (a `Value.str`, never null or undefined). -/
theorem C1_field_coercion (v : String) :
    (jsTrim v ≠ ("") ∧ (jsToNumber (jsTrim v).data).isSome = true ∧
      ∃ n, jsToNumber (jsTrim v).data = some n ∧ coerceField (jsTrim v) = Value.num n) ∨
    ((jsTrim v = ("") ∨ jsToNumber (jsTrim v).data = none) ∧
      coerceField (jsTrim v) = Value.str (jsTrim v)) := by
  by_cases he : jsTrim v = ("")
  · right
    refine ⟨Or.inl he, ?_⟩
    rw [he]
    decide
  · cases hn : jsToNumber (jsTrim v).data with
    | none =>
      right
      exact ⟨Or.inr rfl, by simp [coerceField, hn]⟩
    | some n =>
      left
      exact ⟨he, by simp, n, rfl, by simp [coerceField, hn, he]⟩

/-- Claim C4: toggling a country that is not currently selected adds it
only if fewer than 5 countries are selected; with 5 already selected the
selection is left exactly unchanged (no error, no eviction). -/
theorem C4_toggle_cap (prev : List String) (c : String) (h : c ∉ prev) :
    toggleCountry c prev = if prev.length < 5 then prev ++ [c] else prev := by
  simp [toggleCountry, h]

/-- Witness for C4: with the 5 countries A-E selected, toggling the
unselected F leaves the selection unchanged. -/
theorem C4_toggle_cap_witness :
    toggleCountry ("F") [("A"), ("B"), ("C"), ("D"), ("E")] =
      [("A"), ("B"), ("C"), ("D"), ("E")] := by
  have h := C4_toggle_cap [("A"), ("B"), ("C"), ("D"), ("E")] ("F") (by decide)
  simpa using h

/-- Claim C5: if either response has a non-success status, `loadData`
stores an error message identifying the failing resource and its status
code, and `loaded` becomes true regardless of success or failure. -/
theorem C5_loadData_error (latestRes historyRes : Response) :
    (loadData latestRes historyRes).loaded = true ∧
    (latestRes.ok = false →
      (loadData latestRes historyRes).fetchError =
        some (("latest CSV: ") ++ toString latestRes.status)) ∧
    (latestRes.ok = true → historyRes.ok = false →
      (loadData latestRes historyRes).fetchError =
        some (("history CSV: ") ++ toString historyRes.status)) := by
  refine ⟨rfl, ?_, ?_⟩
  · intro h
    simp [loadData, h]
  · intro h1 h2
    simp [loadData, h1, h2]

/-- Witness for C5: a 404 on the history resource alone yields the
history error message and exits the loading state. -/
theorem C5_loadData_error_witness :
    (loadData ⟨true, 200, ("")⟩ ⟨false, 404, ("")⟩).loaded = true ∧
    (loadData ⟨true, 200, ("")⟩ ⟨false, 404, ("")⟩).fetchError =
      some (("history CSV: ") ++ toString (404 : Nat)) :=
  ⟨(C5_loadData_error _ _).1, (C5_loadData_error _ _).2.2 rfl rfl⟩

/-- Claim C6: toggling a selected country removes exactly that country
(it is gone, every other country keeps its multiplicity) and the
relative order of the remaining selections is preserved (the result is a
sublist of the previous selection). -/
theorem C6_toggle_remove (prev : List String) (c : String) (h : c ∈ prev) :
    (toggleCountry c prev).Sublist prev ∧ c ∉ toggleCountry c prev ∧
    ∀ d : String, d ≠ c → (toggleCountry c prev).count d = prev.count d := by
  simp only [toggleCountry, if_pos h]
  refine ⟨List.filter_sublist _, by simp, ?_⟩
  intro d hd
  simp [List.count_filter, hd]

/-- Witness for C6: removing Norway from [Norway, Sweden] keeps Sweden's
count and drops Norway. -/
theorem C6_toggle_remove_witness :
    (toggleCountry ("Norway") [("Norway"), ("Sweden")]).Sublist [("Norway"), ("Sweden")] ∧
    ("Norway") ∉ toggleCountry ("Norway") [("Norway"), ("Sweden")] ∧
    (toggleCountry ("Norway") [("Norway"), ("Sweden")]).count ("Sweden") =
      ([("Norway"), ("Sweden")] : List String).count ("Sweden") := by
  have h := C6_toggle_remove [("Norway"), ("Sweden")] ("Norway") (by decide)
  exact ⟨h.1, h.2.1, h.2.2 ("Sweden") (by decide)⟩

/-- Claim C7: the parser emits no record for a data line that is blank
after trimming: in general the number of records equals the number of
non-blank data lines, and the concrete input of a header, one data line
and one whitespace-only line yields exactly one record. -/
theorem C7_skips_blank_lines :
    (∀ text : String, (parseCSV text).length =
      (((splitLines text).drop 1).filter (fun l => trimChars l ≠ [])).length) ∧
    (parseCSV ("Country,Gold\nNorway,5\n \t ")).length = 1 := by
  constructor
  · intro text
    cases hs : splitLines text with
    | nil => simp [parseCSV, hs]
    | cons hd tl => simp [parseCSV, hs]
  · decide

/-- Claim C2: the pivot produces exactly one output point per distinct
formatted date label, in first-seen order (the i-th point is the point
of the i-th first-seen label), and within a point each record's country
name is a field holding that record's Gold value, a later record with
the same (label, country) pair overwriting the earlier one (`lastGold`
takes the last matching record). -/
theorem C2_pivot_spec (fmt : String → String) (rows : List HistoryRow) :
    (buildHistoryChartData fmt rows).length =
      (firstSeenLabels (rows.map (fun r => fmt r.Scrape_Date))).length ∧
    ∀ (i : Nat) (hi : i < (firstSeenLabels (rows.map (fun r => fmt r.Scrape_Date))).length)
      (c : String) (g : Value),
      lastGold fmt rows ((firstSeenLabels (rows.map (fun r => fmt r.Scrape_Date))).get ⟨i, hi⟩)
          c = some g →
      jsGetA ((buildHistoryChartData fmt rows).getD i []) c = some g := by
  have hkeys := buildFold_map_fst fmt rows
  have hlen : (buildHistoryChartData fmt rows).length =
      (firstSeenLabels (rows.map (fun r => fmt r.Scrape_Date))).length := by
    rw [buildHistoryChartData, ← hkeys]
    simp
  refine ⟨hlen, ?_⟩
  intro i hi c g h
  have hiB : i < (rows.foldl (buildStep fmt) []).length := by
    have h1 : (firstSeenLabels (rows.map (fun r => fmt r.Scrape_Date))).length =
        (rows.foldl (buildStep fmt) []).length := by
      rw [← hkeys]
      simp
    rw [h1] at hi
    exact hi
  have hnodup : ((rows.foldl (buildStep fmt) []).map Prod.fst).Nodup := by
    rw [hkeys]
    exact firstSeenLabels_nodup _
  have hidx := jsGetA_get (rows.foldl (buildStep fmt) []) hnodup i hiB
  have hlab : (firstSeenLabels (rows.map (fun r => fmt r.Scrape_Date))).get ⟨i, hi⟩ =
      ((rows.foldl (buildStep fmt) []).get ⟨i, hiB⟩).1 := by
    have h2 := List.get_of_eq hkeys.symm ⟨i, hi⟩
    rw [h2]
    simp [List.get_eq_getElem, List.getElem_map]
  obtain ⟨pt, hpt, hval⟩ := buildFold_value fmt rows _ c g h
  rw [hlab] at hpt
  rw [hidx] at hpt
  have hpt' : ((rows.foldl (buildStep fmt) []).get ⟨i, hiB⟩).2 = pt :=
    Option.some.inj hpt
  have ho : i < (buildHistoryChartData fmt rows).length := by
    rw [hlen]
    exact hi
  have hout : (buildHistoryChartData fmt rows).getD i [] =
      ((rows.foldl (buildStep fmt) []).get ⟨i, hiB⟩).2 := by
    rw [List.getD_eq_getElem _ _ ho]
    simp only [buildHistoryChartData, List.getElem_map, List.get_eq_getElem]
  rw [hout, hpt']
  exact hval

/-- Witness for C2: two records for Norway on the same label, one for
Sweden on a later label; the first point holds Norway's later
(overwriting) Gold value. -/
theorem C2_pivot_spec_witness :
    jsGetA ((buildHistoryChartData (fun d => d)
        [⟨("d1"), ("Norway"), Value.num (JSNum.fin ⟨5, 0⟩)⟩,
         ⟨("d1"), ("Norway"), Value.num (JSNum.fin ⟨7, 0⟩)⟩,
         ⟨("d2"), ("Sweden"), Value.num (JSNum.fin ⟨2, 0⟩)⟩]).getD 0 []) ("Norway") =
      some (Value.num (JSNum.fin ⟨7, 0⟩)) := by
  have h := (C2_pivot_spec (fun d => d)
      [⟨("d1"), ("Norway"), Value.num (JSNum.fin ⟨5, 0⟩)⟩,
       ⟨("d1"), ("Norway"), Value.num (JSNum.fin ⟨7, 0⟩)⟩,
       ⟨("d2"), ("Sweden"), Value.num (JSNum.fin ⟨2, 0⟩)⟩]).2 0 (by decide)
      ("Norway") (Value.num (JSNum.fin ⟨7, 0⟩)) (by decide)
  exact h

/-- Claim C3: the top-5 list equals the first five country names of the
latest records sorted by Gold descending with ties keeping relative
input order (a permutation of the input, pairwise descending on Gold,
and preserving the input subsequence of each Gold value), and the
initial selection is the first three entries of that list. -/
theorem C3_top5_selected (latest : List MedalRecord) :
    ∃ sorted : List MedalRecord,
      latest.Perm sorted ∧
      sorted.Pairwise (fun a b => b.Gold ≤ a.Gold) ∧
      (∀ g : Int, sorted.filter (fun r => decide (r.Gold = g)) =
        latest.filter (fun r => decide (r.Gold = g))) ∧
      top5 latest = (sorted.take 5).map (fun r => r.Country) ∧
      selectedCountriesInit latest = (top5 latest).take 3 := by
  have htrans : ∀ (a b c : MedalRecord),
      goldDescLE a b → goldDescLE b c → goldDescLE a c := by
    intro a b c hab hbc
    simp only [goldDescLE, decide_eq_true_eq] at *
    omega
  have htotal : ∀ (a b : MedalRecord), goldDescLE a b || goldDescLE b a := by
    intro a b
    simp only [goldDescLE, Bool.or_eq_true, decide_eq_true_eq]
    omega
  refine ⟨latest.mergeSort goldDescLE, (List.mergeSort_perm latest goldDescLE).symm,
    ?_, ?_, rfl, rfl⟩
  · have hs := List.sorted_mergeSort htrans htotal latest
    exact hs.imp (fun h => by simpa [goldDescLE] using h)
  · intro g
    have hsub : (latest.filter (fun r => decide (r.Gold = g))).Sublist latest :=
      List.filter_sublist _
    have hpair : (latest.filter (fun r => decide (r.Gold = g))).Pairwise
        (fun a b => goldDescLE a b = true) := by
      apply List.pairwise_of_forall_mem_list
      intro a ha b hb
      simp only [List.mem_filter, decide_eq_true_eq] at ha hb
      simp [goldDescLE, ha.2, hb.2]
    have hsl := List.sublist_mergeSort htrans htotal hpair hsub
    have hlen : (latest.filter (fun r => decide (r.Gold = g))).length =
        ((latest.mergeSort goldDescLE).filter (fun r => decide (r.Gold = g))).length := by
      have hperm := List.mergeSort_perm latest goldDescLE
      exact ((hperm.filter _).length_eq).symm
    have h2 : (latest.filter (fun r => decide (r.Gold = g))).Sublist
        ((latest.mergeSort goldDescLE).filter (fun r => decide (r.Gold = g))) := by
      have h3 := hsl.filter (fun r => decide (r.Gold = g))
      rwa [List.filter_filter, show ((fun (r : MedalRecord) => decide (r.Gold = g) &&
        decide (r.Gold = g))) = (fun r => decide (r.Gold = g)) from by
          funext r
          rw [Bool.and_self]] at h3
    exact (h2.eq_of_length hlen).symm

/-- Claim C8: when a data line splits into fewer values than there are
headers, each missing trailing field is treated as the empty string, so
the record stores the empty string (a `Value.str`, not a number) under
that header. -/
theorem C8_missing_fields (headers : List String) (line : List Char)
    (hn : headers.Nodup) (i : Nat) (hi : i < headers.length)
    (hv : (splitOnChar (',') line).length ≤ i) :
    jsGetA (mkRecord headers line) (headers.get ⟨i, hi⟩) = some (Value.str ("")) := by
  have hdef : (((splitOnChar (',') line).map (fun v => String.mk (trimChars v)))).getD
      i ("") = ("") := by
    apply List.getD_eq_default
    simpa using hv
  simp only [mkRecord]
  have hkeys : ((headers.enum.map (fun p => (p.2, coerceField
      ((((splitOnChar (',') line).map (fun v => String.mk (trimChars v)))).getD
        p.1 ("") )))).map Prod.fst) = headers := by
    rw [List.map_map]
    exact List.enum_map_snd headers
  rw [jsFromEntries_of_nodup _ (by rw [hkeys]; exact hn)]
  have hilen : i < (headers.enum.map (fun p => (p.2, coerceField
      ((((splitOnChar (',') line).map (fun v => String.mk (trimChars v)))).getD
        p.1 ("") )))).length := by
    simpa using hi
  have hidx := jsGetA_get _ (by rw [hkeys]; exact hn) i hilen
  have h1 : ((headers.enum.map (fun p => (p.2, coerceField
      ((((splitOnChar (',') line).map (fun v => String.mk (trimChars v)))).getD
        p.1 ("") )))).get ⟨i, hilen⟩) = (headers.get ⟨i, hi⟩, Value.str ("")) := by
    simp only [List.get_eq_getElem, List.getElem_map, List.getElem_enum]
    rw [hdef]
    rw [show coerceField ("") = Value.str ("") from by decide]
  rw [h1] at hidx
  simpa using hidx

/-- Witness for C8: the line `Norway` against headers `Country,Gold`
stores the empty string under `Gold`. -/
theorem C8_missing_fields_witness :
    jsGetA (mkRecord [("Country"), ("Gold")] (("Norway").data)) (("Gold")) =
      some (Value.str ("")) := by
  have h := C8_missing_fields [("Country"), ("Gold")] (("Norway").data)
    (by decide) 1 (by decide) (by decide)
  simpa using h

/-- Claim C9: the parser is total: for every input string (malformed,
empty, or with the wrong number of fields) it returns a list of records,
and every returned record binds exactly the (first-seen deduplicated)
header keys. -/
theorem C9_parseCSV_total (text : String) :
    ∃ rs : List Record, parseCSV text = rs ∧
      ∀ r ∈ rs, r.map Prod.fst = firstSeenLabels (headersOf text) := by
  refine ⟨parseCSV text, rfl, ?_⟩
  intro r hr
  cases hs : splitLines text with
  | nil =>
    simp only [parseCSV, hs] at hr
    exact absurd hr (by simp)
  | cons hd tl =>
    simp only [parseCSV, hs, List.mem_map] at hr
    obtain ⟨l, _, rfl⟩ := hr
    exact mkRecord_map_fst _ l

/-- Witness for C9: parsing `Gold\n5` yields the single record binding
the sole header. -/
theorem C9_parseCSV_total_witness :
    ([(("Gold"), Value.num (JSNum.fin ⟨5, 0⟩))] : Record).map Prod.fst =
      firstSeenLabels (headersOf ("Gold\n5")) := by
  obtain ⟨rs, h1, h2⟩ := C9_parseCSV_total ("Gold\n5")
  have e : rs = [[(("Gold"), Value.num (JSNum.fin ⟨5, 0⟩))]] := by
    rw [← h1]
    decide
  exact h2 _ (by rw [e]; simp)

/-- Claim C10: starting from the initial selection (first three of the
top-5 list) with distinct names, every sequence of toggles keeps the
selection duplicate-free and of size at most 5. -/
theorem C10_selection_invariant (latest : List MedalRecord) (cs : List String)
    (h : (selectedCountriesInit latest).Nodup) :
    (cs.foldl (fun s c => toggleCountry c s) (selectedCountriesInit latest)).Nodup ∧
    (cs.foldl (fun s c => toggleCountry c s) (selectedCountriesInit latest)).length ≤ 5 := by
  have hlen : (selectedCountriesInit latest).length ≤ 5 := by
    have h3 : (selectedCountriesInit latest).length ≤ 3 := by
      simp only [selectedCountriesInit, List.length_take]
      omega
    omega
  have main : ∀ (cs : List String) (s : List String), s.Nodup → s.length ≤ 5 →
      (cs.foldl (fun s c => toggleCountry c s) s).Nodup ∧
      (cs.foldl (fun s c => toggleCountry c s) s).length ≤ 5 := by
    intro cs
    induction cs with
    | nil =>
      intro s h1 h2
      exact ⟨h1, h2⟩
    | cons c cs ih =>
      intro s h1 h2
      simp only [List.foldl_cons]
      obtain ⟨h1', h2'⟩ := toggle_preserves c s h1 h2
      exact ih _ h1' h2'
  exact main cs _ h hlen

/-- Witness for C10: a toggle sequence with a repeated country starting
from the (empty) initial selection of an empty table. -/
theorem C10_selection_invariant_witness :
    (([("A"), ("B"), ("C"), ("A"), ("D")]).foldl (fun s c => toggleCountry c s)
      (selectedCountriesInit [])).Nodup ∧
    (([("A"), ("B"), ("C"), ("A"), ("D")]).foldl (fun s c => toggleCountry c s)
      (selectedCountriesInit [])).length ≤ 5 :=
  C10_selection_invariant [] [("A"), ("B"), ("C"), ("A"), ("D")]
    (by simp [selectedCountriesInit, top5])

end Cortina
